import Mathlib

/-!
Verification of the `fromthumb` image-matching pipeline (`src/bin/find.rs`).

The development shallowly embeds the pure content of the Rust program:

* pixels and images (`Rgba`, `Image`), the background test `is_pixel_white`;
* the content-bounds detector `detect_inner_image_bounds` (split into
  `detect_bounds`, which returns the raw `(min_x, min_y, max_x, max_y)`
  accumulators of the Rust loops, and the final rectangle);
* the hash cache `load_phash` and the batch loader `load_phashes`, with the
  filesystem modelled as an association list from file name to the stored
  encoded hash, and the opaque perceptual-hash capabilities passed in as
  parameters (`decode` for `ImageHash::from_base64`, `encode` for
  `ImageHash::to_base64`, `compute` for the open/trim/thumbnail/hash step);
* the matcher loop of `match_thumbs` (`bm_step` / `best_match`), and the
  per-match logging and copying tail of that loop (`process_thumb_threshold`,
  `run_matches`), with `fs::copy` modelled by a fallible `copyFn` parameter
  and the emitted log lines and copies recorded as a trace of `LogOrCopy`
  actions.

Machine integers (`u8`, `u32`) are modelled as `Nat`: none of the code paths
involved can overflow (`u8` channel values are only compared, distances are
only compared), and `max_x - min_x` is shown to never underflow.  Rayon's
parallel map in `load_phashes` is embedded sequentially: the per-file cache
keys are distinct file names of one directory, so the tasks are independent
and their join (`collect :: Result<Vec<_>>`) fails iff some task fails.
-/

set_option autoImplicit false

namespace Fromthumb

/-- `THUMBNAIL_LIMIT` from `find.rs` (size passed to `thumbnail`). -/
def THUMBNAIL_LIMIT : Nat := 255

/-- `WHITE_THRESHOLD` from `find.rs`: channel value above which a channel
counts as background-bright. -/
def WHITE_THRESHOLD : Nat := 230

/-- `WARN_DISTANCE_THRESHOLD` from `find.rs`: review threshold for matches. -/
def WARN_DISTANCE_THRESHOLD : Nat := 10

/-- An RGBA pixel (`image::Rgba<u8>`); channel values are `Nat`s. -/
structure Rgba where
  r : Nat
  g : Nat
  b : Nat
  a : Nat
deriving DecidableEq

/-- An image: dimensions plus a pixel accessor (`GenericImageView`).
`pixel x y` models `image.get_pixel(x, y)`; only calls with `x < width`
and `y < height` correspond to defined behaviour of the Rust code. -/
structure Image where
  width : Nat
  height : Nat
  pixel : Nat → Nat → Rgba

/-- `is_pixel_white` from `find.rs`: all of R, G, B strictly above
`WHITE_THRESHOLD`. -/
def is_pixel_white (p : Rgba) : Bool :=
  decide (WHITE_THRESHOLD < p.r) && decide (WHITE_THRESHOLD < p.g) &&
    decide (WHITE_THRESHOLD < p.b)

/-- The `width_checks` array of `detect_inner_image_bounds`:
`[w/4, w/4*2, w/4*3]` (the three sampled column positions). -/
def width_checksOf (width : Nat) : List Nat :=
  [width / 4, width / 4 * 2, width / 4 * 3]

/-- The `height_checks` array of `detect_inner_image_bounds`:
`[h/4, h/4*2, h/4*3]` (the three sampled row positions). -/
def height_checksOf (height : Nat) : List Nat :=
  [height / 4, height / 4 * 2, height / 4 * 3]

/-- The `for x_check in 0..width_checks[0]` loop body of
`detect_inner_image_bounds`: first non-white column of row `y`, scanning
left to right over `[0, w/4)`. -/
def scanRowLeft (img : Image) (y : Nat) : Option Nat :=
  (List.range (img.width / 4)).find? (fun x => ! is_pixel_white (img.pixel x y))

/-- The `for x_check in (width_checks[2]..width).rev()` loop body: first
non-white column of row `y`, scanning right to left over `[w/4*3, w)`. -/
def scanRowRight (img : Image) (y : Nat) : Option Nat :=
  ((List.range' (img.width / 4 * 3) (img.width - img.width / 4 * 3)).reverse).find?
    (fun x => ! is_pixel_white (img.pixel x y))

/-- The `for y_check in 0..height_checks[0]` loop body: first non-white row
of column `x`, scanning top to bottom over `[0, h/4)`. -/
def scanColTop (img : Image) (x : Nat) : Option Nat :=
  (List.range (img.height / 4)).find? (fun y => ! is_pixel_white (img.pixel x y))

/-- The `for y_check in (height_checks[2]..height).rev()` loop body: first
non-white row of column `x`, scanning bottom to top over `[h/4*3, h)`. -/
def scanColBottom (img : Image) (x : Nat) : Option Nat :=
  ((List.range' (img.height / 4 * 3) (img.height - img.height / 4 * 3)).reverse).find?
    (fun y => ! is_pixel_white (img.pixel x y))

/-- One iteration of the `for height_check in height_checks.iter()` loop:
update the `(min_x, max_x)` accumulator pair from row `hc`.  A `break` on
the first non-white pixel is `find?`; the accumulator is updated only when
a non-white pixel is found. -/
def xStep (img : Image) (acc : Nat × Nat) (hc : Nat) : Nat × Nat :=
  (match scanRowLeft img hc with
    | some x => min acc.1 x
    | none => acc.1,
   match scanRowRight img hc with
    | some x => max acc.2 x
    | none => acc.2)

/-- One iteration of the `for width_check in width_checks.iter()` loop:
update the `(min_y, max_y)` accumulator pair from column `wc`. -/
def yStep (img : Image) (acc : Nat × Nat) (wc : Nat) : Nat × Nat :=
  (match scanColTop img wc with
    | some y => min acc.1 y
    | none => acc.1,
   match scanColBottom img wc with
    | some y => max acc.2 y
    | none => acc.2)

/-- The accumulators of `detect_inner_image_bounds` after both loops:
`(min_x, min_y, max_x, max_y)`, each pair starting at `(w/2, w/2)` resp.
`(h/2, h/2)`. -/
def detect_bounds (img : Image) : Nat × Nat × Nat × Nat :=
  let xb := (height_checksOf img.height).foldl (xStep img) (img.width / 2, img.width / 2)
  let yb := (width_checksOf img.width).foldl (yStep img) (img.height / 2, img.height / 2)
  (xb.1, yb.1, xb.2, yb.2)

/-- `detect_inner_image_bounds` from `find.rs`: returns
`(min_x, min_y, max_x - min_x, max_y - min_y)`. -/
def detect_inner_image_bounds (img : Image) : Nat × Nat × Nat × Nat :=
  let b := detect_bounds img
  (b.1, b.2.1, b.2.2.1 - b.1, b.2.2.2 - b.2.1)

/-- `PathPhash` from `find.rs`: a file name paired with its perceptual hash.
The hash type `H` is a parameter (`img_hash::ImageHash` is opaque). -/
structure PathPhash (H : Type) where
  file_name : String
  phash : H
deriving DecidableEq

/-- `Match` from `find.rs`: thumbnail name, matched full-size name, distance. -/
structure Match where
  thumb : String
  fullsize : String
  distance : Nat
deriving DecidableEq

/-- The body of the inner `for fullsize_phash in fullsize_phashes.iter()`
loop of `match_thumbs`: build `new_output` for candidate `fp` and keep it
only when its distance is strictly smaller than the current best. -/
def bm_step {H : Type} (dist : H → H → Nat) (t : PathPhash H)
    (output : Option Match) (fp : PathPhash H) : Option Match :=
  let distance := dist t.phash fp.phash
  let new_output : Match :=
    { thumb := t.file_name, fullsize := fp.file_name, distance := distance }
  match output with
  | none => some new_output
  | some old_output =>
      some (if new_output.distance < old_output.distance then new_output else old_output)

/-- The `output` value of `match_thumbs` after the inner loop over all
full-size candidates for one thumbnail. -/
def best_match {H : Type} (dist : H → H → Nat) (t : PathPhash H)
    (fulls : List (PathPhash H)) : Option Match :=
  fulls.foldl (bm_step dist t) none

/-- The list of matches produced by the outer loop of `match_thumbs`
(one optional `Match` per thumbnail, in thumbnail order). -/
def match_all {H : Type} (dist : H → H → Nat)
    (thumbs fulls : List (PathPhash H)) : List Match :=
  thumbs.filterMap (fun t => best_match dist t fulls)

/-- Observable effects of the `if let Some(output) = output` tail of the
`match_thumbs` loop: the two `info!` lines and the `fs::copy`. -/
inductive LogOrCopy where
  | logMatched : String → String → LogOrCopy
  | logReview : String → String → Nat → LogOrCopy
  | copyFile : String → LogOrCopy
deriving DecidableEq

/-- The copy actions of a trace (which full-size files got copied). -/
def copiesOf (acts : List LogOrCopy) : List String :=
  acts.filterMap (fun act => match act with
    | LogOrCopy.copyFile f => some f
    | _ => none)

/-- The `if let Some(output) = output { ... }` tail of the `match_thumbs`
loop for one thumbnail, with the review threshold `τ` as a parameter
(the source fixes `τ = WARN_DISTANCE_THRESHOLD`).  `copyFn` models
`fs::copy` of the matched full-size file (an `Err` aborts the run); the
returned trace records the log lines emitted and the file copied. -/
def process_thumb_threshold {H : Type} (τ : Nat) (dist : H → H → Nat)
    (copyFn : String → Except String Unit) (fulls : List (PathPhash H))
    (t : PathPhash H) : Except String (List LogOrCopy) :=
  match best_match dist t fulls with
  | none => Except.ok []
  | some m =>
      match copyFn m.fullsize with
      | Except.ok _ =>
          Except.ok ([LogOrCopy.logMatched m.thumb m.fullsize] ++
            (if τ < m.distance
              then [LogOrCopy.logReview m.thumb m.fullsize m.distance] else []) ++
            [LogOrCopy.copyFile m.fullsize])
      | Except.error e => Except.error e

/-- `process_thumb_threshold` at the source's fixed threshold. -/
def process_thumb {H : Type} (dist : H → H → Nat)
    (copyFn : String → Except String Unit) (fulls : List (PathPhash H))
    (t : PathPhash H) : Except String (List LogOrCopy) :=
  process_thumb_threshold WARN_DISTANCE_THRESHOLD dist copyFn fulls t

/-- The full matching-and-materializing loop of `match_thumbs` over the
thumbnail list: processes thumbnails in order, aborting on the first copy
error and otherwise concatenating the action traces. -/
def run_matches {H : Type} (dist : H → H → Nat)
    (copyFn : String → Except String Unit) (fulls : List (PathPhash H)) :
    List (PathPhash H) → Except String (List LogOrCopy)
  | [] => Except.ok []
  | t :: rest =>
      match process_thumb dist copyFn fulls t with
      | Except.ok acts =>
          match run_matches dist copyFn fulls rest with
          | Except.ok acts' => Except.ok (acts ++ acts')
          | Except.error e => Except.error e
      | Except.error e => Except.error e

/-- The cache directory for one role, as an association list from file name
to the stored encoded hash (one cache file per hashed image). -/
def lookupCache (cache : List (String × String)) (k : String) : Option String :=
  (cache.find? (fun e => e.1 == k)).map (fun e => e.2)

/-- `load_phash` from `find.rs` for one role's cache directory.  `decode`
models `ImageHash::from_base64`, `encode` models `ImageHash::to_base64`,
and `compute` models the cache-miss work (`image::open`, optional
`remove_borders`, `thumbnail`, `hasher.hash_image`) for the file, each
fallible step returning `Except`.  On a hit the stored encoding is decoded
and nothing is written; on a miss the hash is computed and exactly one new
cache entry is written.  Returns the `PathPhash` and the updated cache. -/
def load_phash {H : Type} (decode : String → Except String H) (encode : H → String)
    (compute : String → Except String H) (cache : List (String × String))
    (file_name : String) : Except String (PathPhash H × List (String × String)) :=
  match lookupCache cache file_name with
  | some encoded =>
      match decode encoded with
      | Except.ok h => Except.ok ({ file_name := file_name, phash := h }, cache)
      | Except.error e => Except.error e
  | none =>
      match compute file_name with
      | Except.ok h =>
          Except.ok ({ file_name := file_name, phash := h },
            (file_name, encode h) :: cache)
      | Except.error e => Except.error e

/-- `load_phashes` from `find.rs`: hash-or-look-up every file of a source
directory.  The rayon `collect::<Result<Vec<_>>>` is embedded as a
sequential traversal threading the cache state (cache keys are the distinct
file names of one directory, so the parallel tasks are independent); the
first failing file aborts the whole batch. -/
def load_phashes {H : Type} (decode : String → Except String H) (encode : H → String)
    (compute : String → Except String H) :
    List (String × String) → List String →
      Except String (List (PathPhash H) × List (String × String))
  | cache, [] => Except.ok ([], cache)
  | cache, fn :: rest =>
      match load_phash decode encode compute cache fn with
      | Except.ok (p, cache') =>
          match load_phashes decode encode compute cache' rest with
          | Except.ok (ps, cache'') => Except.ok (p :: ps, cache'')
          | Except.error e => Except.error e
      | Except.error e => Except.error e

/-! ### Spec-side formulations of the edge-bound computation (claim C8)

The following definitions transcribe the SPEC's wording for the four edge
bounds, to be compared with `detect_bounds` (which transcribes the code).
The spec reads: "For the left edge, scan each sampled row from x=0 up to
W/4 and record the first non-background column found; take the minimum such
column across the three rows (defaulting to W/2 if none found) as the left
bound.  Mirror this for the right edge (scanning from W down to 3W/4,
taking the maximum found column, defaulting to W/2), and analogously for
top/bottom edges using sampled columns." -/

/-- Spec's right-edge scan of one row: first non-background column scanning
from the right edge down to `3W/4` (integer division of `3*W` by 4, per the
spec's words). -/
def claim_scan_right (img : Image) (y : Nat) : Option Nat :=
  ((List.range' (3 * img.width / 4) (img.width - 3 * img.width / 4)).reverse).find?
    (fun x => ! is_pixel_white (img.pixel x y))

/-- Spec's bottom-edge scan of one column: first non-background row scanning
from the bottom edge up to `3H/4`. -/
def claim_scan_bottom (img : Image) (x : Nat) : Option Nat :=
  ((List.range' (3 * img.height / 4) (img.height - 3 * img.height / 4)).reverse).find?
    (fun y => ! is_pixel_white (img.pixel x y))

/-- Minimum of a list of found columns, with a default for "none found". -/
def minOrDefault (found : List Nat) (dflt : Nat) : Nat :=
  match found with
  | [] => dflt
  | c :: cs => cs.foldl min c

/-- Maximum of a list of found columns, with a default for "none found". -/
def maxOrDefault (found : List Nat) (dflt : Nat) : Nat :=
  match found with
  | [] => dflt
  | c :: cs => cs.foldl max c

/-- Spec's left bound: minimum over the sampled rows of the first
non-background column in `[0, W/4)`, defaulting to `W/2` if none found. -/
def spec_left_bound (img : Image) : Nat :=
  minOrDefault ((height_checksOf img.height).filterMap (scanRowLeft img)) (img.width / 2)

/-- Spec's top bound: minimum over the sampled columns of the first
non-background row in `[0, H/4)`, defaulting to `H/2` if none found. -/
def spec_top_bound (img : Image) : Nat :=
  minOrDefault ((width_checksOf img.width).filterMap (scanColTop img)) (img.height / 2)

/-- Spec's right bound as claimed: maximum found column of the
`claim_scan_right` scans, defaulting to `W/2` if none found. -/
def claimed_right_bound (img : Image) : Nat :=
  maxOrDefault ((height_checksOf img.height).filterMap (claim_scan_right img)) (img.width / 2)

/-- Spec's bottom bound as claimed: maximum found row of the
`claim_scan_bottom` scans, defaulting to `H/2` if none found. -/
def claimed_bottom_bound (img : Image) : Nat :=
  maxOrDefault ((width_checksOf img.width).filterMap (claim_scan_bottom img)) (img.height / 2)

/-- The claimed right bound with only the scan range corrected to the
code's `[w/4*3, w)` (still "maximum of the found columns, default `W/2`"):
used to show this intermediate reading is still not what the code computes. -/
def range_fixed_right_bound (img : Image) : Nat :=
  maxOrDefault ((height_checksOf img.height).filterMap (scanRowRight img)) (img.width / 2)

/-- Amended right bound: the maximum of `W/2` and all found columns of the
code's right-edge scans (range `[w/4*3, w)`, scanning from the right). -/
def amended_right_bound (img : Image) : Nat :=
  ((height_checksOf img.height).filterMap (scanRowRight img)).foldl max (img.width / 2)

/-- Amended bottom bound: the maximum of `H/2` and all found rows of the
code's bottom-edge scans (range `[h/4*3, h)`, scanning from the bottom). -/
def amended_bottom_bound (img : Image) : Nat :=
  ((width_checksOf img.width).filterMap (scanColBottom img)).foldl max (img.height / 2)

/-! ### Concrete images for counterexamples and witnesses -/

/-- A background pixel (all channels above `WHITE_THRESHOLD`). -/
def whitePixel : Rgba := { r := 255, g := 255, b := 255, a := 255 }

/-- A content pixel (all channels below `WHITE_THRESHOLD`). -/
def blackPixel : Rgba := { r := 0, g := 0, b := 0, a := 255 }

/-- A 10×1 image whose only non-background column is `x = 6`. -/
def stripeImgA : Image :=
  { width := 10, height := 1,
    pixel := fun x _ => if x = 6 then blackPixel else whitePixel }

/-- A 2×1 image whose only non-background column is `x = 0`. -/
def stripeImgB : Image :=
  { width := 2, height := 1,
    pixel := fun x _ => if x = 0 then blackPixel else whitePixel }

/-- A 4×2 all-background image. -/
def whiteImg : Image :=
  { width := 4, height := 2, pixel := fun _ _ => whitePixel }

/-- The property claim C1 states of the matcher's result: the match's
distance is a minimum over all candidates, and the matched candidate is the
first in scan order attaining it (every earlier candidate is strictly
farther, so a later candidate with an equal distance never replaces an
earlier one). -/
def IsFirstMin {H : Type} (dist : H → H → Nat) (t : PathPhash H)
    (fulls : List (PathPhash H)) (m : Match) : Prop :=
  m.thumb = t.file_name ∧
  (∀ q ∈ fulls, m.distance ≤ dist t.phash q.phash) ∧
  ∃ pre fp post, fulls = pre ++ fp :: post ∧
    m.fullsize = fp.file_name ∧ m.distance = dist t.phash fp.phash ∧
    ∀ q ∈ pre, m.distance < dist t.phash q.phash

/-- A concrete hash type and distance (absolute difference on `Nat`),
used to instantiate the generic matcher and cache theorems in witnesses. -/
def natDist (a b : Nat) : Nat := max a b - min a b

/-- A concrete thumbnail entry for witnesses. -/
def thumbT : PathPhash Nat := { file_name := "t.png", phash := 5 }

/-- A concrete full-size list for witnesses: distances to `thumbT` are
4, 2, 2 — the minimum 2 is attained first by `b.png`. -/
def fullsList : List (PathPhash Nat) :=
  [{ file_name := "a.png", phash := 9 },
   { file_name := "b.png", phash := 3 },
   { file_name := "c.png", phash := 7 }]

/-- A copy function that always succeeds, used in witnesses. -/
def okCopy : String → Except String Unit := fun _ => Except.ok ()

/-- A single far-away candidate: its distance 94 to `thumbT` exceeds the
review threshold. -/
def farList : List (PathPhash Nat) := [{ file_name := "far.png", phash := 99 }]

/-- The action trace `process_thumb` produces for `thumbT` against
`farList` (low-confidence case: advisory log plus the copy). -/
def reviewActs : List LogOrCopy :=
  [LogOrCopy.logMatched "t.png" "far.png",
   LogOrCopy.logReview "t.png" "far.png" 94,
   LogOrCopy.copyFile "far.png"]

/-- A concrete encoder for `Nat` hashes (unary string), witness-only. -/
def natEncode : Nat → String := fun n => String.mk (List.replicate n 'a')

/-- A concrete decoder inverting `natEncode`, witness-only. -/
def natDecode : String → Except String Nat := fun s => Except.ok s.length

/-- A decoder that always fails, modelling a corrupt cache entry. -/
def badDecode : String → Except String Nat := fun _ => Except.error "corrupt"

/-- A computation that always succeeds with hash 7, witness-only. -/
def constCompute : String → Except String Nat := fun _ => Except.ok 7

/-- A computation that always fails, used to show a cache hit never
invokes the computation. -/
def ioErrCompute : String → Except String Nat := fun _ => Except.error "io"

/-! ### Helper lemmas on the content bounds detector -/

lemma scanRowLeft_le_half (img : Image) (y x : Nat)
    (h : scanRowLeft img y = some x) : x ≤ img.width / 2 := by
  have hx := List.mem_range.mp (List.mem_of_find?_eq_some h)
  omega

lemma scanColTop_le_half (img : Image) (x y : Nat)
    (h : scanColTop img x = some y) : y ≤ img.height / 2 := by
  have hy := List.mem_range.mp (List.mem_of_find?_eq_some h)
  omega

lemma scanRowLeft_none (img : Image) (y : Nat)
    (hwhite : ∀ a b, a < img.width → b < img.height →
      is_pixel_white (img.pixel a b) = true)
    (hy : y < img.height) : scanRowLeft img y = none := by
  apply List.find?_eq_none.mpr
  intro x hx
  have hx' := List.mem_range.mp hx
  simp [hwhite x y (by omega) hy]

lemma scanRowRight_none (img : Image) (y : Nat)
    (hwhite : ∀ a b, a < img.width → b < img.height →
      is_pixel_white (img.pixel a b) = true)
    (hy : y < img.height) : scanRowRight img y = none := by
  apply List.find?_eq_none.mpr
  intro x hx
  rw [List.mem_reverse, List.mem_range'] at hx
  simp [hwhite x y (by omega) hy]

lemma scanColTop_none (img : Image) (x : Nat)
    (hwhite : ∀ a b, a < img.width → b < img.height →
      is_pixel_white (img.pixel a b) = true)
    (hx : x < img.width) : scanColTop img x = none := by
  apply List.find?_eq_none.mpr
  intro y hy
  have hy' := List.mem_range.mp hy
  simp [hwhite x y hx (by omega)]

lemma scanColBottom_none (img : Image) (x : Nat)
    (hwhite : ∀ a b, a < img.width → b < img.height →
      is_pixel_white (img.pixel a b) = true)
    (hx : x < img.width) : scanColBottom img x = none := by
  apply List.find?_eq_none.mpr
  intro y hy
  rw [List.mem_reverse, List.mem_range'] at hy
  simp [hwhite x y hx (by omega)]

lemma nat_min_def (a b : Nat) : min a b = if a ≤ b then a else b := Nat.min_def

lemma nat_max_def (a b : Nat) : max a b = if a ≤ b then b else a := Nat.max_def

lemma xFold_fst (img : Image) (l : List Nat) : ∀ i j : Nat,
    (l.foldl (xStep img) (i, j)).1 =
      l.foldl (fun acc hc => match scanRowLeft img hc with
        | some x => min acc x
        | none => acc) i := by
  induction l with
  | nil => intro i j; rfl
  | cons hd tl ih =>
      intro i j
      simp only [List.foldl, xStep]
      exact ih _ _

lemma xFold_snd (img : Image) (l : List Nat) : ∀ i j : Nat,
    (l.foldl (xStep img) (i, j)).2 =
      l.foldl (fun acc hc => match scanRowRight img hc with
        | some x => max acc x
        | none => acc) j := by
  induction l with
  | nil => intro i j; rfl
  | cons hd tl ih =>
      intro i j
      simp only [List.foldl, xStep]
      exact ih _ _

lemma yFold_fst (img : Image) (l : List Nat) : ∀ i j : Nat,
    (l.foldl (yStep img) (i, j)).1 =
      l.foldl (fun acc wc => match scanColTop img wc with
        | some y => min acc y
        | none => acc) i := by
  induction l with
  | nil => intro i j; rfl
  | cons hd tl ih =>
      intro i j
      simp only [List.foldl, yStep]
      exact ih _ _

lemma yFold_snd (img : Image) (l : List Nat) : ∀ i j : Nat,
    (l.foldl (yStep img) (i, j)).2 =
      l.foldl (fun acc wc => match scanColBottom img wc with
        | some y => max acc y
        | none => acc) j := by
  induction l with
  | nil => intro i j; rfl
  | cons hd tl ih =>
      intro i j
      simp only [List.foldl, yStep]
      exact ih _ _

lemma min_x_eq_spec_left (img : Image) :
    (height_checksOf img.height).foldl (fun acc hc => match scanRowLeft img hc with
        | some x => min acc x
        | none => acc) (img.width / 2) = spec_left_bound img := by
  have hb : ∀ y x, scanRowLeft img y = some x → x ≤ img.width / 2 := scanRowLeft_le_half img
  simp only [height_checksOf, spec_left_bound, minOrDefault, List.foldl]
  generalize img.width / 2 = W2 at *
  rcases e1 : scanRowLeft img (img.height / 4) with _ | x1 <;>
  rcases e2 : scanRowLeft img (img.height / 4 * 2) with _ | x2 <;>
  rcases e3 : scanRowLeft img (img.height / 4 * 3) with _ | x3 <;>
  (try have b1 := hb _ _ e1) <;>
  (try have b2 := hb _ _ e2) <;>
  (try have b3 := hb _ _ e3) <;>
  simp only [e1, e2, e3, List.filterMap_cons, List.filterMap_nil, List.foldl] <;>
  simp only [nat_min_def, nat_max_def] <;> split_ifs <;> omega

lemma max_x_eq_amended_right (img : Image) :
    (height_checksOf img.height).foldl (fun acc hc => match scanRowRight img hc with
        | some x => max acc x
        | none => acc) (img.width / 2) = amended_right_bound img := by
  simp only [height_checksOf, amended_right_bound, List.foldl]
  generalize img.width / 2 = W2 at *
  rcases e1 : scanRowRight img (img.height / 4) with _ | x1 <;>
  rcases e2 : scanRowRight img (img.height / 4 * 2) with _ | x2 <;>
  rcases e3 : scanRowRight img (img.height / 4 * 3) with _ | x3 <;>
  simp only [e1, e2, e3, List.filterMap_cons, List.filterMap_nil, List.foldl]

lemma min_y_eq_spec_top (img : Image) :
    (width_checksOf img.width).foldl (fun acc wc => match scanColTop img wc with
        | some y => min acc y
        | none => acc) (img.height / 2) = spec_top_bound img := by
  have hb : ∀ x y, scanColTop img x = some y → y ≤ img.height / 2 := scanColTop_le_half img
  simp only [width_checksOf, spec_top_bound, minOrDefault, List.foldl]
  generalize img.height / 2 = H2 at *
  rcases e1 : scanColTop img (img.width / 4) with _ | y1 <;>
  rcases e2 : scanColTop img (img.width / 4 * 2) with _ | y2 <;>
  rcases e3 : scanColTop img (img.width / 4 * 3) with _ | y3 <;>
  (try have b1 := hb _ _ e1) <;>
  (try have b2 := hb _ _ e2) <;>
  (try have b3 := hb _ _ e3) <;>
  simp only [e1, e2, e3, List.filterMap_cons, List.filterMap_nil, List.foldl] <;>
  simp only [nat_min_def, nat_max_def] <;> split_ifs <;> omega

lemma max_y_eq_amended_bottom (img : Image) :
    (width_checksOf img.width).foldl (fun acc wc => match scanColBottom img wc with
        | some y => max acc y
        | none => acc) (img.height / 2) = amended_bottom_bound img := by
  simp only [width_checksOf, amended_bottom_bound, List.foldl]
  generalize img.height / 2 = H2 at *
  rcases e1 : scanColBottom img (img.width / 4) with _ | y1 <;>
  rcases e2 : scanColBottom img (img.width / 4 * 2) with _ | y2 <;>
  rcases e3 : scanColBottom img (img.width / 4 * 3) with _ | y3 <;>
  simp only [e1, e2, e3, List.filterMap_cons, List.filterMap_nil, List.foldl]

lemma foldMin_le (f : Nat → Option Nat) (l : List Nat) : ∀ i : Nat,
    l.foldl (fun acc hc => match f hc with
      | some x => min acc x
      | none => acc) i ≤ i := by
  induction l with
  | nil => intro i; exact Nat.le_refl i
  | cons hd tl ih =>
      intro i
      simp only [List.foldl]
      refine Nat.le_trans (ih _) ?_
      cases f hd with
      | none => exact Nat.le_refl i
      | some x => exact min_le_left i x

lemma foldMax_ge (f : Nat → Option Nat) (l : List Nat) : ∀ i : Nat,
    i ≤ l.foldl (fun acc hc => match f hc with
      | some x => max acc x
      | none => acc) i := by
  induction l with
  | nil => intro i; exact Nat.le_refl i
  | cons hd tl ih =>
      intro i
      simp only [List.foldl]
      refine Nat.le_trans ?_ (ih _)
      cases f hd with
      | none => exact Nat.le_refl i
      | some x => exact le_max_left i x

/-- C6: on an image of positive dimensions whose pixels are all background
(R, G, B all strictly above the brightness threshold), the content bounds
detector returns the degenerate rectangle `(W/2, H/2, 0, 0)` centered at
the image midpoint. -/
theorem detect_all_white (img : Image) (hW : 0 < img.width) (hH : 0 < img.height)
    (hwhite : ∀ x y, x < img.width → y < img.height →
      is_pixel_white (img.pixel x y) = true) :
    detect_inner_image_bounds img = (img.width / 2, img.height / 2, 0, 0) := by
  have hc1 : img.height / 4 < img.height := by omega
  have hc2 : img.height / 4 * 2 < img.height := by omega
  have hc3 : img.height / 4 * 3 < img.height := by omega
  have hw1 : img.width / 4 < img.width := by omega
  have hw2 : img.width / 4 * 2 < img.width := by omega
  have hw3 : img.width / 4 * 3 < img.width := by omega
  simp only [detect_inner_image_bounds, detect_bounds, height_checksOf, width_checksOf,
    List.foldl, xStep, yStep,
    scanRowLeft_none img _ hwhite hc1, scanRowRight_none img _ hwhite hc1,
    scanRowLeft_none img _ hwhite hc2, scanRowRight_none img _ hwhite hc2,
    scanRowLeft_none img _ hwhite hc3, scanRowRight_none img _ hwhite hc3,
    scanColTop_none img _ hwhite hw1, scanColBottom_none img _ hwhite hw1,
    scanColTop_none img _ hwhite hw2, scanColBottom_none img _ hwhite hw2,
    scanColTop_none img _ hwhite hw3, scanColBottom_none img _ hwhite hw3,
    Nat.sub_self]

/-- Witness for C6: the all-white 4×2 image `whiteImg` satisfies the
hypotheses and the detector returns its degenerate center rectangle. -/
theorem detect_all_white_witness :
    (0 < whiteImg.width ∧ 0 < whiteImg.height ∧
      ∀ x y, x < whiteImg.width → y < whiteImg.height →
        is_pixel_white (whiteImg.pixel x y) = true) ∧
    detect_inner_image_bounds whiteImg =
      (whiteImg.width / 2, whiteImg.height / 2, 0, 0) :=
  ⟨⟨by decide, by decide, fun _ _ _ _ => rfl⟩,
    detect_all_white whiteImg (by decide) (by decide) (fun _ _ _ _ => rfl)⟩

/-- C7, counterexample: the claim says the detector samples row positions
`H/4, H/2, 3H/4`, but at `H = 6` the code samples rows `[1, 2, 3]`
(`height_checksOf 6`) while `[6/4, 6/2, 3*6/4] = [1, 3, 4]`. -/
theorem sample_positions_claim_false :
    height_checksOf 6 ≠ [6 / 4, 6 / 2, 3 * 6 / 4] := by decide

/-- C7, amended: the detector samples the row positions
`[⌊H/4⌋, 2⌊H/4⌋, 3⌊H/4⌋]` and the column positions
`[⌊W/4⌋, 2⌊W/4⌋, 3⌊W/4⌋]`; these agree with the claimed
`[H/4, H/2, 3H/4]` (resp. `[W/4, W/2, 3W/4]`) exactly when the dimension
is 0 or 1 modulo 4 (for dimensions that are 2 or 3 modulo 4 the middle
sample `2⌊H/4⌋` already differs from `⌊H/2⌋`, so the lists differ). -/
theorem sample_positions_amended (w h : Nat) :
    width_checksOf w = [w / 4, w / 4 * 2, w / 4 * 3] ∧
    height_checksOf h = [h / 4, h / 4 * 2, h / 4 * 3] ∧
    (width_checksOf w = [w / 4, w / 2, 3 * w / 4] ↔ w % 4 ≤ 1) ∧
    (height_checksOf h = [h / 4, h / 2, 3 * h / 4] ↔ h % 4 ≤ 1) := by
  refine ⟨rfl, rfl, ⟨fun heq => ?_, fun hr => ?_⟩, ⟨fun heq => ?_, fun hr => ?_⟩⟩
  · simp only [width_checksOf, List.cons.injEq, and_true] at heq
    omega
  · have e2 : w / 4 * 2 = w / 2 := by omega
    have e3 : w / 4 * 3 = 3 * w / 4 := by omega
    simp [width_checksOf, e2, e3]
  · simp only [height_checksOf, List.cons.injEq, and_true] at heq
    omega
  · have e2 : h / 4 * 2 = h / 2 := by omega
    have e3 : h / 4 * 3 = 3 * h / 4 := by omega
    simp [height_checksOf, e2, e3]

/-- Witness for C7's amended theorem at `w = 8`, `h = 5` (forward
direction) and `w = 6`, `h = 7` (converse direction). -/
theorem sample_positions_amended_witness :
    ((8 % 4 ≤ 1 ∧ 5 % 4 ≤ 1) ∧
      width_checksOf 8 = [8 / 4, 8 / 2, 3 * 8 / 4] ∧
      height_checksOf 5 = [5 / 4, 5 / 2, 3 * 5 / 4]) ∧
    ((width_checksOf 6 = [6 / 4, 6 / 2, 3 * 6 / 4] → False) ∧
      (height_checksOf 7 = [7 / 4, 7 / 2, 3 * 7 / 4] → False)) :=
  ⟨⟨by decide, (sample_positions_amended 8 5).2.2.1.mpr (by decide),
     (sample_positions_amended 8 5).2.2.2.mpr (by decide)⟩,
   ⟨fun heq => by
      have := (sample_positions_amended 6 7).2.2.1.mp heq
      exact absurd this (by decide),
    fun heq => by
      have := (sample_positions_amended 6 7).2.2.2.mp heq
      exact absurd this (by decide)⟩⟩

/-- C8, counterexample: the claimed description of the edge bounds does not
match the code.  First conjunct: on the 10×1 image `stripeImgA` (content
only at column 6) the code's right bound is 6, but the claimed right bound
scans only down to `3W/4 = 7` and therefore defaults to `W/2 = 5`.  Second
conjunct: correcting only the scan range to the code's `3⌊W/4⌋` is still
wrong — on the 2×1 image `stripeImgB` (content at column 0) the code's right
bound is `max(W/2, 0) = 1` while "maximum found column, default `W/2`"
would give 0. -/
theorem edge_bounds_claim_false :
    detect_bounds stripeImgA ≠
      (spec_left_bound stripeImgA, spec_top_bound stripeImgA,
        claimed_right_bound stripeImgA, claimed_bottom_bound stripeImgA) ∧
    (detect_bounds stripeImgB).2.2.1 ≠ range_fixed_right_bound stripeImgB :=
  ⟨by decide, by decide⟩

/-- C8, amended: the left and top bounds are as claimed (minimum over the
sampled rows/columns of the first non-background position in the first
quarter, default `W/2` resp. `H/2`); the right bound is the maximum of
`W/2` and the columns found scanning each sampled row from the right edge
down to `3⌊W/4⌋` inclusive, and the bottom bound is the analogous maximum
of `H/2` and the rows found scanning up to `3⌊H/4⌋`. -/
theorem edge_bounds_amended (img : Image) :
    detect_bounds img =
      (spec_left_bound img, spec_top_bound img,
        amended_right_bound img, amended_bottom_bound img) := by
  simp only [detect_bounds]
  rw [xFold_fst, xFold_snd, yFold_fst, yFold_snd, min_x_eq_spec_left,
    max_x_eq_amended_right, min_y_eq_spec_top, max_y_eq_amended_bottom]

/-- C10: the detector's accumulators satisfy
`min_x ≤ W/2 ≤ max_x` and `min_y ≤ H/2 ≤ max_y` for every image, so the
final subtractions `max_x - min_x` and `max_y - min_y` never underflow and
the returned rectangle is well-defined. -/
theorem detect_bounds_no_underflow (img : Image) (a b c d : Nat)
    (h : detect_bounds img = (a, b, c, d)) :
    a ≤ img.width / 2 ∧ img.width / 2 ≤ c ∧ b ≤ img.height / 2 ∧ img.height / 2 ≤ d ∧
    a ≤ c ∧ b ≤ d ∧
    detect_inner_image_bounds img = (a, b, c - a, d - b) ∧
    a + (c - a) = c ∧ b + (d - b) = d := by
  simp only [detect_bounds, Prod.mk.injEq] at h
  obtain ⟨h1, h2, h3, h4⟩ := h
  subst h1 h2 h3 h4
  have hA : ((height_checksOf img.height).foldl (xStep img)
      (img.width / 2, img.width / 2)).1 ≤ img.width / 2 := by
    rw [xFold_fst]
    exact foldMin_le _ _ _
  have hC : img.width / 2 ≤ ((height_checksOf img.height).foldl (xStep img)
      (img.width / 2, img.width / 2)).2 := by
    rw [xFold_snd]
    exact foldMax_ge _ _ _
  have hB : ((width_checksOf img.width).foldl (yStep img)
      (img.height / 2, img.height / 2)).1 ≤ img.height / 2 := by
    rw [yFold_fst]
    exact foldMin_le _ _ _
  have hD : img.height / 2 ≤ ((width_checksOf img.width).foldl (yStep img)
      (img.height / 2, img.height / 2)).2 := by
    rw [yFold_snd]
    exact foldMax_ge _ _ _
  refine ⟨hA, hC, hB, hD, Nat.le_trans hA hC, Nat.le_trans hB hD, rfl, ?_, ?_⟩ <;> omega

/-- Witness for C10 at the concrete image `stripeImgA`, whose accumulators
are `(5, 0, 6, 0)`. -/
theorem detect_bounds_no_underflow_witness :
    detect_bounds stripeImgA = (5, 0, 6, 0) ∧
    (5 ≤ stripeImgA.width / 2 ∧ stripeImgA.width / 2 ≤ 6 ∧
      0 ≤ stripeImgA.height / 2 ∧ stripeImgA.height / 2 ≤ 0 ∧
      5 ≤ 6 ∧ 0 ≤ 0 ∧
      detect_inner_image_bounds stripeImgA = (5, 0, 6 - 5, 0 - 0) ∧
      5 + (6 - 5) = 6 ∧ 0 + (0 - 0) = 0) :=
  ⟨by decide, detect_bounds_no_underflow stripeImgA 5 0 6 0 (by decide)⟩

lemma bm_fold_characterize {H : Type} (dist : H → H → Nat) (t : PathPhash H)
    (rest : List (PathPhash H)) : ∀ m : Match, m.thumb = t.file_name →
    ∃ m', rest.foldl (bm_step dist t) (some m) = some m' ∧ m'.thumb = t.file_name ∧
      ((m' = m ∧ ∀ q ∈ rest, m.distance ≤ dist t.phash q.phash) ∨
       (∃ pre fp post, rest = pre ++ fp :: post ∧
         m'.fullsize = fp.file_name ∧ m'.distance = dist t.phash fp.phash ∧
         m'.distance < m.distance ∧
         (∀ q ∈ pre, m'.distance < dist t.phash q.phash) ∧
         (∀ q ∈ rest, m'.distance ≤ dist t.phash q.phash))) := by
  induction rest with
  | nil =>
      intro m hm
      exact ⟨m, rfl, hm, Or.inl ⟨rfl, by simp⟩⟩
  | cons fp rest ih =>
      intro m hm
      by_cases hlt : dist t.phash fp.phash < m.distance
      · have hstep : bm_step dist t (some m) fp =
            some (Match.mk t.file_name fp.file_name (dist t.phash fp.phash)) := by
          simp [bm_step, hlt]
        obtain ⟨m', hfold, hthumb, hdisj⟩ := ih (Match.mk t.file_name fp.file_name (dist t.phash fp.phash)) rfl
        refine ⟨m', by simpa [List.foldl, hstep] using hfold, hthumb, Or.inr ?_⟩
        rcases hdisj with ⟨heq, hall⟩ | ⟨pre, fq, post, hrest, hfs, hdist, hlt2, hpre, hall⟩
        · subst heq
          refine ⟨[], fp, rest, rfl, rfl, rfl, hlt, ?_, ?_⟩
          · intro q hq
            exact absurd hq (List.not_mem_nil q)
          · intro q hq
            rcases List.mem_cons.mp hq with h | h
            · subst h; exact Nat.le_refl _
            · exact hall q h
        · refine ⟨fp :: pre, fq, post, by rw [hrest, List.cons_append], hfs, hdist,
            Nat.lt_trans hlt2 hlt, ?_, ?_⟩
          · intro q hq
            rcases List.mem_cons.mp hq with h | h
            · subst h; exact hlt2
            · exact hpre q h
          · intro q hq
            rcases List.mem_cons.mp hq with h | h
            · subst h; exact Nat.le_of_lt hlt2
            · exact hall q h
      · have hge : m.distance ≤ dist t.phash fp.phash := Nat.le_of_not_lt hlt
        have hstep : bm_step dist t (some m) fp = some m := by
          simp [bm_step, hlt]
        obtain ⟨m', hfold, hthumb, hdisj⟩ := ih m hm
        refine ⟨m', by simpa [List.foldl, hstep] using hfold, hthumb, ?_⟩
        rcases hdisj with ⟨heq, hall⟩ | ⟨pre, fq, post, hrest, hfs, hdist, hlt2, hpre, hall⟩
        · refine Or.inl ⟨heq, ?_⟩
          intro q hq
          rcases List.mem_cons.mp hq with h | h
          · subst h; exact hge
          · exact hall q h
        · refine Or.inr ⟨fp :: pre, fq, post, by rw [hrest, List.cons_append], hfs, hdist, hlt2, ?_, ?_⟩
          · intro q hq
            rcases List.mem_cons.mp hq with h | h
            · subst h; exact Nat.lt_of_lt_of_le hlt2 hge
            · exact hpre q h
          · intro q hq
            rcases List.mem_cons.mp hq with h | h
            · subst h; exact Nat.le_trans (Nat.le_of_lt hlt2) hge
            · exact hall q h

/-- C1: for every thumbnail hash and non-empty full-size list, the matcher
loop returns a `Match` whose distance is the minimum candidate distance and
whose full-size identity is the first candidate in scan order attaining
that minimum (strictly-less-than comparison keeps the earlier candidate on
ties). -/
theorem best_match_first_min {H : Type} (dist : H → H → Nat) (t : PathPhash H)
    (fulls : List (PathPhash H)) (hne : fulls ≠ []) :
    ∃ m, best_match dist t fulls = some m ∧ IsFirstMin dist t fulls m := by
  match fulls, hne with
  | f0 :: rest, _ =>
    obtain ⟨m', hfold, hthumb, hdisj⟩ := bm_fold_characterize dist t rest
      (Match.mk t.file_name f0.file_name (dist t.phash f0.phash)) rfl
    have hbm : best_match dist t (f0 :: rest) = some m' := by
      simpa [best_match, List.foldl, bm_step] using hfold
    rcases hdisj with ⟨heq, hall⟩ | ⟨pre, fq, post, hrest, hfs, hdist, hlt2, hpre, hall⟩
    · subst heq
      refine ⟨_, hbm, hthumb, ?_, [], f0, rest, rfl, rfl, rfl, ?_⟩
      · intro q hq
        rcases List.mem_cons.mp hq with h | h
        · subst h; exact Nat.le_refl _
        · exact hall q h
      · intro q hq
        exact absurd hq (List.not_mem_nil q)
    · refine ⟨m', hbm, hthumb, ?_, f0 :: pre, fq, post, by rw [hrest, List.cons_append], hfs, hdist, ?_⟩
      · intro q hq
        rcases List.mem_cons.mp hq with h | h
        · subst h; exact Nat.le_of_lt hlt2
        · exact hall q h
      · intro q hq
        rcases List.mem_cons.mp hq with h | h
        · subst h; exact hlt2
        · exact hpre q h


/-- Witness for C1 at the concrete thumbnail `thumbT` and candidate list
`fullsList`. -/
theorem best_match_first_min_witness :
    fullsList ≠ [] ∧
    ∃ m, best_match natDist thumbT fullsList = some m ∧
      IsFirstMin natDist thumbT fullsList m :=
  ⟨by decide, best_match_first_min natDist thumbT fullsList (by decide)⟩

lemma best_match_some {H : Type} (dist : H → H → Nat) (t : PathPhash H)
    (fulls : List (PathPhash H)) (hne : fulls ≠ []) :
    ∃ m, best_match dist t fulls = some m ∧ m.thumb = t.file_name := by
  match fulls, hne with
  | f0 :: rest, _ =>
    obtain ⟨m', hfold, hthumb, _⟩ := bm_fold_characterize dist t rest
      (Match.mk t.file_name f0.file_name (dist t.phash f0.phash)) rfl
    exact ⟨m', by simpa [best_match, List.foldl, bm_step] using hfold, hthumb⟩

/-- C2: with a non-empty full-size list the matcher produces exactly one
`Match` per thumbnail (one entry per thumbnail, carrying that thumbnail's
name); with an empty full-size list it produces no `Match`, the run loop
emits no action (in particular no copy), and it still completes with
`Except.ok` rather than an error. -/
theorem match_all_per_thumbnail {H : Type} (dist : H → H → Nat)
    (copyFn : String → Except String Unit) (thumbs fulls : List (PathPhash H)) :
    (fulls ≠ [] → (match_all dist thumbs fulls).map Match.thumb =
      thumbs.map PathPhash.file_name ∧
      (match_all dist thumbs fulls).length = thumbs.length) ∧
    match_all dist thumbs [] = [] ∧
    run_matches dist copyFn [] thumbs = Except.ok [] := by
  refine ⟨fun hne => ?_, ?_, ?_⟩
  · have hmap : (match_all dist thumbs fulls).map Match.thumb =
        thumbs.map PathPhash.file_name := by
      induction thumbs with
      | nil => rfl
      | cons t rest ih =>
          obtain ⟨m, hm, hthumb⟩ := best_match_some dist t fulls hne
          simp [match_all, List.filterMap_cons, hm, hthumb] at ih ⊢
          exact ih
    refine ⟨hmap, ?_⟩
    have := congrArg List.length hmap
    simpa using this
  · simp [match_all, best_match, List.foldl]
  · induction thumbs with
    | nil => rfl
    | cons t rest ih =>
        simp [run_matches, process_thumb, process_thumb_threshold, best_match,
          List.foldl, ih]

/-- C5: when the best match's distance strictly exceeds the review
threshold, the processing of that thumbnail emits the manual-review
diagnostic but still records the copy of the matched file; and for every
threshold value the set of copied files is unchanged (the threshold is
advisory only and never affects the chosen match or the copy). -/
theorem review_threshold_advisory {H : Type} (dist : H → H → Nat)
    (copyFn : String → Except String Unit) (fulls : List (PathPhash H))
    (t : PathPhash H) (m : Match) (acts : List LogOrCopy)
    (hbm : best_match dist t fulls = some m)
    (hgt : WARN_DISTANCE_THRESHOLD < m.distance)
    (hrun : process_thumb dist copyFn fulls t = Except.ok acts) :
    LogOrCopy.logReview m.thumb m.fullsize m.distance ∈ acts ∧
    LogOrCopy.copyFile m.fullsize ∈ acts ∧
    ∀ τ : Nat, (process_thumb_threshold τ dist copyFn fulls t).map copiesOf =
      (process_thumb dist copyFn fulls t).map copiesOf := by
  have hτgen : ∀ τ : Nat,
      (process_thumb_threshold τ dist copyFn fulls t).map copiesOf =
        (process_thumb dist copyFn fulls t).map copiesOf := by
    intro τ
    unfold process_thumb process_thumb_threshold
    rw [hbm]
    cases hc : copyFn m.fullsize with
    | ok u =>
        by_cases h1 : τ < m.distance <;>
        by_cases h2 : WARN_DISTANCE_THRESHOLD < m.distance <;>
        simp [copiesOf, h1, h2, hc, Except.map, List.filterMap]
    | error e => simp [hc]
  refine ⟨?_, ?_, hτgen⟩ <;>
  · unfold process_thumb process_thumb_threshold at hrun
    simp only [hbm] at hrun
    cases hc : copyFn m.fullsize with
    | ok u =>
        simp [hc, hgt] at hrun
        subst hrun
        simp
    | error e =>
        simp [hc] at hrun


/-- Witness for C2 with one thumbnail and the concrete candidate list
`fullsList` (and the empty candidate list for the second half). -/
theorem match_all_per_thumbnail_witness :
    fullsList ≠ [] ∧
    ((match_all natDist [thumbT] fullsList).map Match.thumb =
        [thumbT].map PathPhash.file_name ∧
      (match_all natDist [thumbT] fullsList).length = [thumbT].length) ∧
    match_all natDist [thumbT] [] = [] ∧
    run_matches natDist okCopy [] [thumbT] = Except.ok [] :=
  ⟨by decide,
   (match_all_per_thumbnail natDist okCopy [thumbT] fullsList).1 (by decide),
   (match_all_per_thumbnail natDist okCopy [thumbT] fullsList).2.1,
   (match_all_per_thumbnail natDist okCopy [thumbT] fullsList).2.2⟩

/-- Witness for C5: against `farList` the best distance 94 exceeds the
threshold; the trace contains the review log and the copy. -/
theorem review_threshold_advisory_witness :
    (best_match natDist thumbT farList = some (Match.mk "t.png" "far.png" 94) ∧
      WARN_DISTANCE_THRESHOLD < 94 ∧
      process_thumb natDist okCopy farList thumbT = Except.ok reviewActs) ∧
    (LogOrCopy.logReview "t.png" "far.png" 94 ∈ reviewActs ∧
      LogOrCopy.copyFile "far.png" ∈ reviewActs ∧
      ∀ τ : Nat, (process_thumb_threshold τ natDist okCopy farList thumbT).map copiesOf =
        (process_thumb natDist okCopy farList thumbT).map copiesOf) :=
  ⟨⟨rfl, by decide, rfl⟩,
    review_threshold_advisory natDist okCopy farList thumbT
      (Match.mk "t.png" "far.png" 94) reviewActs rfl (by decide) rfl⟩

lemma load_phash_name {H : Type} (decode : String → Except String H)
    (encode : H → String) (compute : String → Except String H)
    (cache : List (String × String)) (fn : String) (p : PathPhash H)
    (cache' : List (String × String))
    (h : load_phash decode encode compute cache fn = Except.ok (p, cache')) :
    p.file_name = fn := by
  unfold load_phash at h
  rcases hl : lookupCache cache fn with _ | enc <;> simp only [hl] at h
  · rcases hc : compute fn with e | hh <;> simp only [hc] at h
    · exact Except.noConfusion h
    · simp only [Except.ok.injEq, Prod.mk.injEq] at h
      rw [← h.1]
  · rcases hd : decode enc with e | hh <;> simp only [hd] at h
    · exact Except.noConfusion h
    · simp only [Except.ok.injEq, Prod.mk.injEq] at h
      rw [← h.1]

lemma load_phashes_ok_names {H : Type} (decode : String → Except String H)
    (encode : H → String) (compute : String → Except String H) :
    ∀ (files : List String) (cache : List (String × String))
      (ps : List (PathPhash H)) (cache' : List (String × String)),
      load_phashes decode encode compute cache files = Except.ok (ps, cache') →
      ps.map PathPhash.file_name = files := by
  intro files
  induction files with
  | nil =>
      intro cache ps cache' h
      simp only [load_phashes, Except.ok.injEq, Prod.mk.injEq] at h
      rw [← h.1]
      rfl
  | cons fn rest ih =>
      intro cache ps cache' h
      simp only [load_phashes] at h
      rcases h1 : load_phash decode encode compute cache fn with e1 | ⟨p, c1⟩ <;>
        simp only [h1] at h
      · exact Except.noConfusion h
      · rcases h2 : load_phashes decode encode compute c1 rest with e2 | ⟨ps2, c2⟩ <;>
          simp only [h2] at h
        · exact Except.noConfusion h
        · simp only [Except.ok.injEq, Prod.mk.injEq] at h
          rw [← h.1]
          simp only [List.map_cons, List.cons.injEq]
          exact ⟨load_phash_name decode encode compute cache fn p c1 h1, ih c1 ps2 c2 h2⟩

lemma load_phashes_error_prop {H : Type} (decode : String → Except String H)
    (encode : H → String) (compute : String → Except String H) :
    ∀ (pre : List String) (cache : List (String × String))
      (ps : List (PathPhash H)) (cache' : List (String × String))
      (fn : String) (post : List String) (e : String),
      load_phashes decode encode compute cache pre = Except.ok (ps, cache') →
      load_phash decode encode compute cache' fn = Except.error e →
      load_phashes decode encode compute cache (pre ++ fn :: post) = Except.error e := by
  intro pre
  induction pre with
  | nil =>
      intro cache ps cache' fn post e hok hfail
      simp only [load_phashes, Except.ok.injEq, Prod.mk.injEq] at hok
      rw [← hok.2] at hfail
      simp only [List.nil_append, load_phashes, hfail]
  | cons g rest ih =>
      intro cache ps cache' fn post e hok hfail
      simp only [load_phashes] at hok
      rcases h1 : load_phash decode encode compute cache g with e1 | ⟨p, c1⟩ <;>
        simp only [h1] at hok
      · exact Except.noConfusion hok
      · rcases h2 : load_phashes decode encode compute c1 rest with e2 | ⟨ps2, c2⟩ <;>
          simp only [h2] at hok
        · exact Except.noConfusion hok
        · simp only [Except.ok.injEq, Prod.mk.injEq] at hok
          rw [← hok.2] at hfail
          have hrec := ih c1 ps2 c2 fn post e h2 hfail
          simp only [List.cons_append, load_phashes, h1, List.append_eq, hrec]

/-- C9: the batch loader is fail-fast.  A successful run returns exactly
one `PathPhash` per directory entry, in order (no entry skipped); and if
the per-file hash-or-cache-lookup of any single entry fails, the whole
batch returns that error and no list is produced. -/
theorem load_phashes_fail_fast {H : Type} (decode : String → Except String H)
    (encode : H → String) (compute : String → Except String H)
    (files : List String) (cache : List (String × String)) :
    (∀ ps cache', load_phashes decode encode compute cache files = Except.ok (ps, cache') →
      ps.map PathPhash.file_name = files) ∧
    (∀ pre fn post ps cache' e, files = pre ++ fn :: post →
      load_phashes decode encode compute cache pre = Except.ok (ps, cache') →
      load_phash decode encode compute cache' fn = Except.error e →
      load_phashes decode encode compute cache files = Except.error e) :=
  ⟨fun ps cache' h => load_phashes_ok_names decode encode compute files cache ps cache' h,
   fun pre fn post ps cache' e hsplit hok hfail => by
     rw [hsplit]
     exact load_phashes_error_prop decode encode compute pre cache ps cache' fn post e hok hfail⟩


/-- C3: the hash cache.  On a hit, `load_phash` is independent of the
computation function, returns the decoded stored hash, and leaves the
cache unchanged (no write); on a miss it computes, writes exactly one new
entry for the file, and returns the computed hash; and a second call on
the written cache returns the same hash for any computation function
(computing at most once), provided the encoding round-trips. -/
theorem load_phash_cache_behavior {H : Type} (decode : String → Except String H)
    (encode : H → String) (cache : List (String × String)) (fn : String) :
    (∀ compute compute' : String → Except String H, lookupCache cache fn ≠ none →
      load_phash decode encode compute cache fn =
        load_phash decode encode compute' cache fn) ∧
    (∀ (compute : String → Except String H) (enc : String) (h : H),
      lookupCache cache fn = some enc → decode enc = Except.ok h →
        load_phash decode encode compute cache fn =
          Except.ok ({ file_name := fn, phash := h }, cache)) ∧
    (∀ (compute : String → Except String H) (h : H),
      lookupCache cache fn = none → compute fn = Except.ok h →
        load_phash decode encode compute cache fn =
          Except.ok ({ file_name := fn, phash := h }, (fn, encode h) :: cache)) ∧
    (∀ (compute' : String → Except String H) (h : H),
      decode (encode h) = Except.ok h →
        load_phash decode encode compute' ((fn, encode h) :: cache) fn =
          Except.ok ({ file_name := fn, phash := h }, (fn, encode h) :: cache)) := by
  refine ⟨?_, ?_, ?_, ?_⟩
  · intro compute compute' hne
    rcases hl : lookupCache cache fn with _ | enc
    · exact absurd hl hne
    · unfold load_phash
      simp only [hl]
  · intro compute enc h hl hd
    unfold load_phash
    simp only [hl, hd]
  · intro compute h hl hc
    unfold load_phash
    simp only [hl, hc]
  · intro compute' h hd
    have hl : lookupCache ((fn, encode h) :: cache) fn = some (encode h) := by
      simp [lookupCache, List.find?]
    unfold load_phash
    simp only [hl, hd]

/-- C4: a present-but-malformed cache entry is fatal.  When the entry for
`fn` exists but fails to decode, `load_phash` returns the decode error for
every computation function — it never falls back to recomputing — and the
enclosing batch fails with that error. -/
theorem load_phash_corrupt_fatal {H : Type} (decode : String → Except String H)
    (encode : H → String) (cache : List (String × String)) (fn enc e : String)
    (hl : lookupCache cache fn = some enc)
    (hd : decode enc = Except.error e) :
    (∀ compute : String → Except String H,
      load_phash decode encode compute cache fn = Except.error e) ∧
    (∀ (compute : String → Except String H) (rest : List String),
      load_phashes decode encode compute cache (fn :: rest) = Except.error e) := by
  have hfail : ∀ compute : String → Except String H,
      load_phash decode encode compute cache fn = Except.error e := by
    intro compute
    unfold load_phash
    simp only [hl, hd]
  refine ⟨hfail, ?_⟩
  intro compute rest
  simp only [load_phashes, hfail compute]


/-- Witness for C9: with a corrupt entry for `b.png`, hashing
`[a.png, b.png]` processes `a.png` and then fails on `b.png`, aborting the
batch with the decode error. -/
theorem load_phashes_fail_fast_witness :
    (["a.png", "b.png"] = ["a.png"] ++ "b.png" :: [] ∧
      load_phashes badDecode natEncode constCompute [("b.png", "x")] ["a.png"] =
        Except.ok ([{ file_name := "a.png", phash := 7 }],
          [("a.png", natEncode 7), ("b.png", "x")]) ∧
      load_phash badDecode natEncode constCompute
        [("a.png", natEncode 7), ("b.png", "x")] "b.png" = Except.error "corrupt") ∧
    load_phashes badDecode natEncode constCompute [("b.png", "x")] ["a.png", "b.png"] =
      Except.error "corrupt" :=
  ⟨⟨rfl, rfl, rfl⟩,
    (load_phashes_fail_fast badDecode natEncode constCompute
        ["a.png", "b.png"] [("b.png", "x")]).2
      ["a.png"] "b.png" [] [{ file_name := "a.png", phash := 7 }]
      [("a.png", natEncode 7), ("b.png", "x")] "corrupt" rfl rfl rfl⟩

/-- Witness for C3: a miss on the empty cache computes hash 7 and writes
one entry; the second call returns the same hash even under a computation
function that always fails. -/
theorem load_phash_cache_behavior_witness :
    (lookupCache [] "img.png" = none ∧
      constCompute "img.png" = Except.ok 7 ∧
      natDecode (natEncode 7) = Except.ok 7) ∧
    load_phash natDecode natEncode constCompute [] "img.png" =
      Except.ok ({ file_name := "img.png", phash := 7 }, [("img.png", natEncode 7)]) ∧
    load_phash natDecode natEncode ioErrCompute [("img.png", natEncode 7)] "img.png" =
      Except.ok ({ file_name := "img.png", phash := 7 }, [("img.png", natEncode 7)]) :=
  ⟨⟨rfl, rfl, rfl⟩,
    (load_phash_cache_behavior natDecode natEncode [] "img.png").2.2.1
      constCompute 7 rfl rfl,
    (load_phash_cache_behavior natDecode natEncode [] "img.png").2.2.2
      ioErrCompute 7 rfl⟩

/-- Witness for C4: a cache entry `"x"` that fails to decode makes both the
single-file lookup and the whole batch fail with the decode error. -/
theorem load_phash_corrupt_fatal_witness :
    (lookupCache [("f.png", "x")] "f.png" = some "x" ∧
      badDecode "x" = Except.error "corrupt") ∧
    load_phash badDecode natEncode constCompute [("f.png", "x")] "f.png" =
      Except.error "corrupt" ∧
    load_phashes badDecode natEncode constCompute [("f.png", "x")] ["f.png"] =
      Except.error "corrupt" :=
  ⟨⟨rfl, rfl⟩,
    (load_phash_corrupt_fatal badDecode natEncode [("f.png", "x")]
        "f.png" "x" "corrupt" rfl rfl).1 constCompute,
    (load_phash_corrupt_fatal badDecode natEncode [("f.png", "x")]
        "f.png" "x" "corrupt" rfl rfl).2 constCompute []⟩

end Fromthumb
